import Mathlib

/-!
Shallow embedding of the authdecode conversion layer (bit codec, field
bridge, limb decomposer and delta matrix builder) from
`src/authdecode/src/utils.rs` and `src/authdecode/src/backend/halo2/utils.rs`,
together with proofs of the conversion-layer properties.

Machine integers (`u8`, `usize`) are embedded as `Nat`; `BigUint` as `Nat`;
field elements of the bn256 scalar field as canonical residues, i.e. `Nat`
values below the modulus, with field addition made explicit as addition
modulo the modulus.  Rust panics (failed slice indexing, failed `try_into`,
`assert!`) are embedded as `Option.none`.
-/

set_option maxHeartbeats 4000000
set_option maxRecDepth 10000

/-- MSB-first value of a bit sequence: the big-endian binary number the
sequence denotes (no implicit width). -/
def bitsToNat (l : List Bool) : Nat :=
  l.foldl (fun a b => 2 * a + b.toNat) 0

/-- Big-endian value of a byte sequence (embeds `BigUint::from_bytes_be`). -/
def bytesToNat (l : List Nat) : Nat :=
  l.foldl (fun a b => 256 * a + b) 0

/-- Little-endian value of a byte sequence (embeds `BigUint::from_bytes_le`). -/
def bytesToNatLE (l : List Nat) : Nat :=
  l.foldr (fun b a => b + 256 * a) 0

/-- Fuel-driven core of `listChunks`; the fuel only has to dominate the
number of produced chunks, and is instantiated with the list length. -/
def listChunksAux {α : Type} (n : Nat) : Nat → List α → List (List α)
  | 0, _ => []
  | fuel + 1, l => if l.isEmpty then [] else l.take n :: listChunksAux n fuel (l.drop n)

/-- Embeds Rust's `slice::chunks(n)` for `n > 0`: consecutive groups of `n`
elements, the last group possibly shorter.  (Rust panics on `n = 0`; callers
of `listChunks` that can receive `n = 0` guard that case themselves.) -/
def listChunks {α : Type} (n : Nat) (l : List α) : List (List α) :=
  if n = 0 then [] else listChunksAux n l.length l

/-- One byte expanded to 8 booleans, most-significant bit first; embeds the
inner loop `((byte >> (7 - i)) & 1) != 0` of `u8vec_to_boolvec`. -/
def byteToBits (b : Nat) : List Bool :=
  (List.range 8).map fun i => b.testBit (7 - i)

/-- Embeds `u8vec_to_boolvec` (src/authdecode/src/utils.rs): BE bytes to bits
in MSB-first order, 8 bits per byte in byte order. -/
def u8vec_to_boolvec (v : List Nat) : List Bool :=
  (v.map byteToBits).flatten

/-- Embeds `boolvec_to_u8vec` (src/authdecode/src/utils.rs): bits in MSB-first
order to BE bytes, the first byte carrying `len % 8` bits (left-padded with
zeroes) when the bit count is not a multiple of 8.  The two OR-accumulation
loops of the source each assemble one output byte from disjoint bit
positions, so the first output byte is the value of the first
`first_byte_bitsize` bits and every following byte is the value of the next
8-bit group.  The source slices `bv[0..first_byte_bitsize]`, which panics
(out-of-range) exactly when the input is empty, embedded here as `none`. -/
def boolvec_to_u8vec (bv : List Bool) : Option (List Nat) :=
  let rem := bv.length % 8
  let first_byte_bitsize := if rem = 0 then 8 else rem
  if first_byte_bitsize ≤ bv.length then
    some (bitsToNat (bv.take first_byte_bitsize) ::
      (listChunks 8 (bv.drop first_byte_bitsize)).map bitsToNat)
  else none

/-- Embeds `u8vec_to_boolvec_no_pad` (src/authdecode/src/utils.rs): converts
to bits, strips leading `false` bits one by one, and returns `[false]` when
everything was stripped (the input was zero). -/
def u8vec_to_boolvec_no_pad (v : List Nat) : List Bool :=
  let padded := (u8vec_to_boolvec v).dropWhile fun b => !b
  if padded.isEmpty then [false] else padded

/-- Fuel-driven little-endian base-256 digit expansion of a `Nat`; fuel is
instantiated with the number itself, which dominates the digit count. -/
def toBytesLEAux : Nat → Nat → List Nat
  | 0, _ => []
  | fuel + 1, n => if n = 0 then [] else n % 256 :: toBytesLEAux fuel (n / 256)

/-- Embeds `BigUint::to_bytes_le`: little-endian bytes, `[0]` for zero. -/
def toBytesLE (n : Nat) : List Nat :=
  if n = 0 then [0] else toBytesLEAux n n

/-- Embeds `BigUint::to_bytes_be`: big-endian bytes, `[0]` for zero. -/
def toBytesBE (n : Nat) : List Nat :=
  (toBytesLE n).reverse

/-- Embeds `bigint_to_256bits` (src/authdecode/src/backend/halo2/utils.rs):
bits of the BE bytes, left-padded with `false` to 256.  The source writes
into `bits256[256 - bits.len()..]`, which panics when the value needs more
than 256 bits, embedded here as `none`. -/
def bigint_to_256bits (n : Nat) : Option (List Bool) :=
  let bits := u8vec_to_boolvec (toBytesBE n)
  if bits.length ≤ 256 then some (List.replicate (256 - bits.length) false ++ bits)
  else none

/-- Modelled from the spec: the fixed prime modulus of the target curve's
scalar field (`halo2curves::bn256::Fr`, not under src/), the "fixed
256-bit-class prime" of the spec's data model. -/
def MODULUS : Nat :=
  21888242871839275222246405745257275088548364400416034343698204186575808495617

/-- Embeds `biguint_to_f` (src/authdecode/src/backend/halo2/utils.rs): the LE
bytes are copied into a 64-byte wide buffer (`none` embeds the
`copy_from_slice` panic when they do not fit) and reduced by
`F::from_uniform_bytes`, i.e. the 512-bit little-endian value is reduced
modulo the field modulus. -/
def biguint_to_f (n : Nat) : Option Nat :=
  let le := toBytesLE n
  if le.length ≤ 64 then
    some (bytesToNatLE (le ++ List.replicate (64 - le.length) 0) % MODULUS)
  else none

/-- Field addition of bn256 `Fr` on canonical residues: addition modulo the
field modulus. -/
def Fadd (a b : Nat) : Nat :=
  (a + b) % MODULUS

/-- Embeds `f_to_bigint` (src/authdecode/src/backend/halo2/utils.rs): the
canonical 32-byte little-endian encoding of the field element, interpreted
as an unsigned big integer. -/
def f_to_bigint (f : Nat) : Nat :=
  bytesToNatLE (toBytesLE f ++ List.replicate (32 - (toBytesLE f).length) 0)

/-- The per-chunk `BigUint::from_bytes_be(&boolvec_to_u8vec(c))` map inside
`bits_to_limbs`, with the panic of `boolvec_to_u8vec` on an empty chunk
propagated as `none`. -/
def limbValues : List (List Bool) → Option (List Nat)
  | [] => some []
  | c :: cs =>
    match boolvec_to_u8vec c, limbValues cs with
    | some bs, some rest => some (bytesToNat bs :: rest)
    | _, _ => none

/-- Embeds `bits_to_limbs` (src/authdecode/src/backend/halo2/utils.rs): the
256 bits are split into 64-bit chunks, each chunk reassembled into an
unsigned integer, the `try_into` to 4 limbs embedded as a length guard, and
each limb multiplied by its positional weight `2^192, 2^128, 2^64, 2^0`. -/
def bits_to_limbs (bits : List Bool) : Option (List Nat) :=
  match limbValues (listChunks 64 bits) with
  | some limbs =>
    if limbs.length = 4 then
      some ((limbs.zip ([192, 128, 64, 0].map fun s => (2 : Nat) ^ s)).map fun p => p.1 * p.2)
    else none
  | none => none

/-- Modelled from the spec: the circuit geometry constant `CELLS_PER_ROW`
(declared in the circuit module, which is not under src/).  The matrix total
must be 14·256+128 = 3712 elements (spec: 14 non-final 253-wide groups padded
to 256, the full circuit column width, plus a last 128-delta group), laid out
as `USEFUL_ROWS` rows of `CELLS_PER_ROW` cells: 3712 = 58 · 64. -/
def CELLS_PER_ROW : Nat := 64

/-- Modelled from the spec: the circuit geometry constant `USEFUL_ROWS`
(declared in the circuit module, which is not under src/); see
`CELLS_PER_ROW`. -/
def USEFUL_ROWS : Nat := 58

/-- Modelled from the spec: the chunk capacity constant `CHUNK_SIZE`
(declared in the halo2 backend module, which is not under src/).  Per the
comment on `convert_and_pad_deltas` in src, a capacity-wide chunk splits
under 253 useful bits into 14 full 253-delta groups plus a last group of 128
deltas: 14 · 253 + 128 = 3670. -/
def CHUNK_SIZE : Nat := 3670

/-- The `enumerate().flat_map(..)` loop of `convert_and_pad_deltas`: groups
with index below 14 are left-padded with zero field elements to length 256
(`none` embeds the `256 - c.len()` underflow panic on an over-long group),
later groups are passed through unchanged. -/
def padChunks : Nat → List (List Nat) → Option (List Nat)
  | _, [] => some []
  | i, c :: cs =>
    if i < 14 then
      if c.length ≤ 256 then
        (padChunks (i + 1) cs).map fun rest => (List.replicate (256 - c.length) 0 ++ c) ++ rest
      else none
    else
      (padChunks (i + 1) cs).map fun rest => c ++ rest

/-- Embeds `convert_and_pad_deltas` (src/authdecode/src/backend/halo2/utils.rs):
chunks the deltas by `useful_bits` (Rust's `chunks` panics on a zero chunk
size, embedded as `none`) and pads every group of index < 14 to 256. -/
def convert_and_pad_deltas (deltas : List Nat) (useful_bits : Nat) : Option (List Nat) :=
  if useful_bits = 0 then none
  else padChunks 0 (listChunks useful_bits deltas)

/-- Embeds `deltas_to_matrix_of_rows` (src/authdecode/src/backend/halo2/utils.rs):
chunks the padded deltas into rows of `CELLS_PER_ROW`; the two `try_into`
calls of the source (each row to `[F; CELLS_PER_ROW]`, the rows to
`[[F; CELLS_PER_ROW]; USEFUL_ROWS]`) panic unless every row has exactly
`CELLS_PER_ROW` cells and there are exactly `USEFUL_ROWS` rows, embedded as
the guard below. -/
def deltas_to_matrix_of_rows (deltas : List Nat) : Option (List (List Nat)) :=
  let rows := listChunks CELLS_PER_ROW deltas
  if rows.length = USEFUL_ROWS ∧ ∀ r ∈ rows, r.length = CELLS_PER_ROW then some rows
  else none

/-- Embeds `transpose_rows` (src/authdecode/src/backend/halo2/utils.rs):
column `i` of the result collects cell `i` of every row.  `getD` stands for
the source's `inner[i]`, which cannot be out of range because every row of a
well-formed matrix has `CELLS_PER_ROW` cells. -/
def transpose_rows (matrix : List (List Nat)) : List (List Nat) :=
  (List.range CELLS_PER_ROW).map fun i => matrix.map fun row => row.getD i 0

/-- Embeds `deltas_to_matrices` (src/authdecode/src/backend/halo2/utils.rs):
asserts the chunk capacity bound (`none` embeds the `assert!` panic),
right-pads with zero deltas to `CHUNK_SIZE`, converts and pads, and builds
the row-major matrix and its transpose. -/
def deltas_to_matrices (deltas : List Nat) (useful_bits : Nat) :
    Option (List (List Nat) × List (List Nat)) :=
  if deltas.length ≤ CHUNK_SIZE then
    match convert_and_pad_deltas
        (deltas ++ List.replicate (CHUNK_SIZE - deltas.length) 0) useful_bits with
    | some padded =>
      match deltas_to_matrix_of_rows padded with
      | some rows => some (rows, transpose_rows rows)
      | none => none
    | none => none
  else none

/-- Stated from the spec's words, for comparison with
`convert_and_pad_deltas`: partition the deltas into consecutive groups of
`useful_bits`, left-pad every group except the positionally last with
zero-valued field elements to width 256, leave the last group unpadded, and
concatenate. -/
def pad_all_but_last (useful_bits : Nat) (deltas : List Nat) : List Nat :=
  let groups := listChunks useful_bits deltas
  ((groups.dropLast.map fun c => List.replicate (256 - c.length) 0 ++ c).flatten)
    ++ groups.getLastD []

/-- Fuel-driven companion of `listChunks` on lengths alone: the lengths of
the chunks a list of the given total length splits into. -/
def chunkLengthsAux (n : Nat) : Nat → Nat → List Nat
  | 0, _ => []
  | fuel + 1, total =>
    if total = 0 then [] else if total ≤ n then [total] else n :: chunkLengthsAux n fuel (total - n)

/-- The lengths of the chunks produced by `listChunks n` on a list of length
`total` (for `0 < n`). -/
def chunkLengths (n total : Nat) : List Nat :=
  chunkLengthsAux n total total

/-- The output of the `padChunks` loop when no group overflows width 256:
groups of index < 14 left-padded to 256, later groups unchanged. -/
def padSpecAux : Nat → List (List Nat) → List Nat
  | _, [] => []
  | i, c :: cs =>
    (if i < 14 then List.replicate (256 - c.length) 0 ++ c else c) ++ padSpecAux (i + 1) cs

/-- The length of `padSpecAux` as a function of the group lengths alone. -/
def sumPadded : Nat → List Nat → Nat
  | _, [] => 0
  | i, x :: xs => (if i < 14 then (256 - x) + x else x) + sumPadded (i + 1) xs

/-! ### Values of bit and byte sequences -/

theorem bitsToNat_foldl (l : List Bool) :
    ∀ a : Nat, l.foldl (fun x b => 2 * x + b.toNat) a = a * 2 ^ l.length + bitsToNat l := by
  induction l with
  | nil => intro a; simp [bitsToNat]
  | cons b l ih =>
    intro a
    show l.foldl _ (2 * a + b.toNat) = _
    rw [ih (2 * a + b.toNat)]
    have hb : bitsToNat (b :: l) = b.toNat * 2 ^ l.length + bitsToNat l := by
      show l.foldl _ (2 * 0 + b.toNat) = _
      rw [ih (2 * 0 + b.toNat)]
      ring
    rw [hb]
    simp [List.length_cons, Nat.pow_succ]
    ring

theorem bitsToNat_cons (b : Bool) (l : List Bool) :
    bitsToNat (b :: l) = b.toNat * 2 ^ l.length + bitsToNat l := by
  show l.foldl _ (2 * 0 + b.toNat) = _
  rw [bitsToNat_foldl l (2 * 0 + b.toNat)]
  ring

theorem bitsToNat_append (l₁ l₂ : List Bool) :
    bitsToNat (l₁ ++ l₂) = bitsToNat l₁ * 2 ^ l₂.length + bitsToNat l₂ := by
  show (l₁ ++ l₂).foldl _ 0 = _
  rw [List.foldl_append, bitsToNat_foldl l₂]
  rfl

theorem bitsToNat_lt (l : List Bool) : bitsToNat l < 2 ^ l.length := by
  induction l with
  | nil => simp [bitsToNat]
  | cons b l ih =>
    rw [bitsToNat_cons]
    have hb : b.toNat ≤ 1 := Bool.toNat_le b
    calc b.toNat * 2 ^ l.length + bitsToNat l
        < b.toNat * 2 ^ l.length + 2 ^ l.length := by omega
      _ ≤ 1 * 2 ^ l.length + 2 ^ l.length := by
          exact Nat.add_le_add_right (Nat.mul_le_mul_right _ hb) _
      _ ≤ 2 ^ (b :: l).length := by simp [List.length_cons, Nat.pow_succ]; omega

theorem bitsToNat_replicate_false (k : Nat) : bitsToNat (List.replicate k false) = 0 := by
  induction k with
  | zero => rfl
  | succ k ih => rw [List.replicate_succ, bitsToNat_cons, ih]; simp

theorem bitsToNat_all_false (l : List Bool) (h : ∀ b ∈ l, b = false) : bitsToNat l = 0 := by
  induction l with
  | nil => rfl
  | cons b l ih =>
    rw [bitsToNat_cons, h b (List.mem_cons_self b l), ih fun x hx => h x (List.mem_cons_of_mem b hx)]
    simp

theorem bytesToNat_foldl (l : List Nat) :
    ∀ a : Nat, l.foldl (fun x b => 256 * x + b) a = a * 256 ^ l.length + bytesToNat l := by
  induction l with
  | nil => intro a; simp [bytesToNat]
  | cons b l ih =>
    intro a
    show l.foldl _ (256 * a + b) = _
    rw [ih (256 * a + b)]
    have hb : bytesToNat (b :: l) = b * 256 ^ l.length + bytesToNat l := by
      show l.foldl _ (256 * 0 + b) = _
      rw [ih (256 * 0 + b)]
      ring
    rw [hb]
    simp [List.length_cons, Nat.pow_succ]
    ring

theorem bytesToNat_cons (b : Nat) (l : List Nat) :
    bytesToNat (b :: l) = b * 256 ^ l.length + bytesToNat l := by
  show l.foldl _ (256 * 0 + b) = _
  rw [bytesToNat_foldl l (256 * 0 + b)]
  ring

theorem bytesToNatLE_append_zeros (l : List Nat) (k : Nat) :
    bytesToNatLE (l ++ List.replicate k 0) = bytesToNatLE l := by
  have hz : bytesToNatLE (List.replicate k 0) = 0 := by
    induction k with
    | zero => rfl
    | succ k ih => rw [List.replicate_succ]; show 0 + 256 * bytesToNatLE _ = 0; rw [ih]
  show (l ++ _).foldr _ 0 = _
  rw [List.foldr_append]
  show l.foldr _ (bytesToNatLE (List.replicate k 0)) = _
  rw [hz]
  rfl

/-! ### Structure of `listChunks` -/

theorem listChunksAux_congr {α : Type} (n : Nat) (hn : 0 < n) :
    ∀ (f₁ : Nat) (f₂ : Nat) (l : List α), l.length ≤ f₁ → l.length ≤ f₂ →
      listChunksAux n f₁ l = listChunksAux n f₂ l := by
  intro f₁
  induction f₁ with
  | zero =>
    intro f₂ l h₁ h₂
    have : l = [] := List.eq_nil_of_length_eq_zero (Nat.le_zero.mp h₁)
    subst this
    cases f₂ <;> simp [listChunksAux]
  | succ f₁ ih =>
    intro f₂ l h₁ h₂
    by_cases hl : l = []
    · subst hl; cases f₂ <;> simp [listChunksAux]
    · have hpos : 0 < l.length := List.length_pos.mpr hl
      cases f₂ with
      | zero => omega
      | succ f₂ =>
        simp only [listChunksAux, List.isEmpty_eq_false.mpr hl, Bool.false_eq_true,
          if_false]
        have hd : (l.drop n).length ≤ f₁ := by simp [List.length_drop]; omega
        have hd₂ : (l.drop n).length ≤ f₂ := by simp [List.length_drop]; omega
        rw [ih f₂ (l.drop n) hd hd₂]

theorem listChunks_nil {α : Type} (n : Nat) : listChunks n ([] : List α) = [] := by
  by_cases h : n = 0 <;> simp [listChunks, h, listChunksAux]

theorem listChunks_cons {α : Type} {n : Nat} (hn : 0 < n) {l : List α} (hl : l ≠ []) :
    listChunks n l = l.take n :: listChunks n (l.drop n) := by
  have hn0 : ¬ n = 0 := by omega
  have hpos : 0 < l.length := List.length_pos.mpr hl
  simp only [listChunks, hn0, if_false]
  cases hL : l.length with
  | zero => omega
  | succ N =>
    simp only [listChunksAux, List.isEmpty_eq_false.mpr hl, Bool.false_eq_true, if_false]
    have h₁ : (l.drop n).length ≤ N := by simp [List.length_drop]; omega
    rw [listChunksAux_congr n hn N (l.drop n).length (l.drop n) h₁ le_rfl]

theorem listChunks_flatten {α : Type} (n : Nat) (hn : 0 < n) :
    ∀ l : List α, (listChunks n l).flatten = l := by
  suffices H : ∀ (N : Nat) (l : List α), l.length ≤ N → (listChunks n l).flatten = l by
    intro l; exact H l.length l le_rfl
  intro N
  induction N with
  | zero =>
    intro l hl
    have : l = [] := List.eq_nil_of_length_eq_zero (Nat.le_zero.mp hl)
    subst this
    rw [listChunks_nil]
    rfl
  | succ N ih =>
    intro l hl
    by_cases h : l = []
    · subst h; rw [listChunks_nil]; rfl
    · have hpos : 0 < l.length := List.length_pos.mpr h
      rw [listChunks_cons hn h, List.flatten_cons,
        ih (l.drop n) (by simp [List.length_drop]; omega)]
      exact List.take_append_drop n l

theorem chunkLengthsAux_congr (n : Nat) (hn : 0 < n) :
    ∀ (f₁ : Nat) (f₂ : Nat) (total : Nat), total ≤ f₁ → total ≤ f₂ →
      chunkLengthsAux n f₁ total = chunkLengthsAux n f₂ total := by
  intro f₁
  induction f₁ with
  | zero =>
    intro f₂ total h₁ h₂
    have : total = 0 := Nat.le_zero.mp h₁
    subst this
    cases f₂ <;> simp [chunkLengthsAux]
  | succ f₁ ih =>
    intro f₂ total h₁ h₂
    by_cases h0 : total = 0
    · subst h0; cases f₂ <;> simp [chunkLengthsAux]
    · cases f₂ with
      | zero => omega
      | succ f₂ =>
        simp only [chunkLengthsAux, h0, if_false]
        by_cases hle : total ≤ n
        · simp [hle]
        · simp only [hle, if_false]
          rw [ih f₂ (total - n) (by omega) (by omega)]

theorem chunkLengths_pos (n : Nat) (hn : 0 < n) (total : Nat) (h0 : 0 < total) :
    chunkLengths n total
      = if total ≤ n then [total] else n :: chunkLengths n (total - n) := by
  show chunkLengthsAux n total total = _
  cases hL : total with
  | zero => omega
  | succ M =>
    simp only [chunkLengthsAux, Nat.succ_ne_zero, if_false]
    by_cases hle : M + 1 ≤ n
    · simp [hle]
    · simp only [hle, if_false]
      rw [chunkLengthsAux_congr n hn M (M + 1 - n) (M + 1 - n) (by omega) le_rfl]
      rfl

theorem listChunks_map_length {α : Type} (n : Nat) (hn : 0 < n) :
    ∀ l : List α, (listChunks n l).map List.length = chunkLengths n l.length := by
  suffices H : ∀ (N : Nat) (l : List α), l.length ≤ N →
      (listChunks n l).map List.length = chunkLengths n l.length by
    intro l; exact H l.length l le_rfl
  intro N
  induction N with
  | zero =>
    intro l hl
    have : l = [] := List.eq_nil_of_length_eq_zero (Nat.le_zero.mp hl)
    subst this
    rw [listChunks_nil]
    rfl
  | succ N ih =>
    intro l hl
    by_cases h : l = []
    · subst h; rw [listChunks_nil]; rfl
    · have hpos : 0 < l.length := List.length_pos.mpr h
      rw [listChunks_cons hn h, List.map_cons, ih (l.drop n) (by simp [List.length_drop]; omega),
        chunkLengths_pos n hn l.length hpos]
      by_cases hle : l.length ≤ n
      · have hdrop : l.drop n = [] := List.drop_eq_nil_of_le hle
        simp [hle, hdrop, List.length_take, listChunks_nil, chunkLengths, chunkLengthsAux,
          Nat.min_eq_left hle, Nat.min_eq_right hle]
      · simp only [hle, if_false, List.length_drop, List.length_take]
        congr 1
        omega

theorem listChunks_length_le {α : Type} (n : Nat) (hn : 0 < n) :
    ∀ l : List α, ∀ c ∈ listChunks n l, c.length ≤ n := by
  suffices H : ∀ (N : Nat) (l : List α), l.length ≤ N → ∀ c ∈ listChunks n l, c.length ≤ n by
    intro l; exact H l.length l le_rfl
  intro N
  induction N with
  | zero =>
    intro l hl c hc
    have : l = [] := List.eq_nil_of_length_eq_zero (Nat.le_zero.mp hl)
    subst this
    rw [listChunks_nil] at hc
    exact absurd hc (List.not_mem_nil c)
  | succ N ih =>
    intro l hl c hc
    by_cases h : l = []
    · subst h; rw [listChunks_nil] at hc; exact absurd hc (List.not_mem_nil c)
    · have hpos : 0 < l.length := List.length_pos.mpr h
      rw [listChunks_cons hn h] at hc
      rcases List.mem_cons.mp hc with h₁ | h₁
      · subst h₁; simp [List.length_take]
      · exact ih (l.drop n) (by simp [List.length_drop]; omega) c h₁

theorem listChunks_getElem? {α : Type} (n : Nat) (hn : 0 < n) :
    ∀ (l : List α) (i : Nat), n * i < l.length →
      (listChunks n l)[i]? = some ((l.drop (n * i)).take n) := by
  suffices H : ∀ (N : Nat) (l : List α) (i : Nat), l.length ≤ N → n * i < l.length →
      (listChunks n l)[i]? = some ((l.drop (n * i)).take n) by
    intro l i hi; exact H l.length l i le_rfl hi
  intro N
  induction N with
  | zero => intro l i hl hi; omega
  | succ N ih =>
    intro l i hl hi
    have h : l ≠ [] := by
      intro h0; subst h0; simp at hi
    rw [listChunks_cons hn h]
    cases i with
    | zero => simp
    | succ i =>
      have hd : (l.drop n).length ≤ N := by simp [List.length_drop]; omega
      have hi2 : n * i < (l.drop n).length := by
        simp [List.length_drop]
        have : n * (i + 1) = n * i + n := by ring
        omega
      simp only [List.getElem?_cons_succ]
      rw [ih (l.drop n) i hd hi2, List.drop_drop]
      congr 3
      ring

/-! ### The padding loop of `convert_and_pad_deltas` -/

theorem padChunks_eq :
    ∀ (cs : List (List Nat)) (i : Nat), (∀ c ∈ cs, c.length ≤ 256) →
      padChunks i cs = some (padSpecAux i cs) := by
  intro cs
  induction cs with
  | nil => intro i h; rfl
  | cons c cs ih =>
    intro i h
    have hc : c.length ≤ 256 := h c (List.mem_cons_self c cs)
    have hrest := ih (i + 1) fun x hx => h x (List.mem_cons_of_mem c hx)
    by_cases hi : i < 14
    · simp [padChunks, padSpecAux, hi, hc, hrest]
    · simp [padChunks, padSpecAux, hi, hrest]

theorem padSpecAux_length :
    ∀ (cs : List (List Nat)) (i : Nat),
      (padSpecAux i cs).length = sumPadded i (cs.map List.length) := by
  intro cs
  induction cs with
  | nil => intro i; rfl
  | cons c cs ih =>
    intro i
    show ((if i < 14 then _ else _) ++ padSpecAux (i + 1) cs).length = _
    rw [List.length_append, ih (i + 1)]
    by_cases hi : i < 14 <;> simp [sumPadded, hi, List.length_append, List.length_replicate]

theorem padSpecAux_all_but_last :
    ∀ (cs : List (List Nat)) (i : Nat), i + cs.length = 15 →
      padSpecAux i cs
        = ((cs.dropLast.map fun c => List.replicate (256 - c.length) 0 ++ c).flatten)
          ++ cs.getLastD [] := by
  intro cs
  induction cs with
  | nil => intro i h; simp [padSpecAux]
  | cons c cs ih =>
    intro i h
    cases cs with
    | nil =>
      have hi : i = 14 := by simpa using h
      subst hi
      simp [padSpecAux]
    | cons d ds =>
      have hi : i < 14 := by
        have : (d :: ds).length > 0 := by simp
        simp [List.length_cons] at h
        omega
      have hrec := ih (i + 1) (by simp [List.length_cons] at h ⊢; omega)
      show (if i < 14 then _ else _) ++ padSpecAux (i + 1) (d :: ds) = _
      rw [if_pos hi, hrec]
      simp [List.dropLast_cons_of_ne_nil, List.getLastD_cons]

/-! ### The bit codec -/

theorem byteToBits_length (b : Nat) : (byteToBits b).length = 8 := by
  simp [byteToBits]

theorem byteToBits_value : ∀ b < 256, bitsToNat (byteToBits b) = b := by decide

theorem byteToBits_zero : byteToBits 0 = List.replicate 8 false := by decide

theorem u8vec_to_boolvec_cons (b : Nat) (v : List Nat) :
    u8vec_to_boolvec (b :: v) = byteToBits b ++ u8vec_to_boolvec v := by
  simp [u8vec_to_boolvec]

theorem u8vec_to_boolvec_length (v : List Nat) :
    (u8vec_to_boolvec v).length = 8 * v.length := by
  induction v with
  | nil => rfl
  | cons b v ih =>
    rw [u8vec_to_boolvec_cons, List.length_append, byteToBits_length, ih, List.length_cons]
    ring

theorem u8vec_to_boolvec_value (v : List Nat) (h : ∀ b ∈ v, b < 256) :
    bitsToNat (u8vec_to_boolvec v) = bytesToNat v := by
  induction v with
  | nil => rfl
  | cons b v ih =>
    rw [u8vec_to_boolvec_cons, bitsToNat_append, u8vec_to_boolvec_length,
      byteToBits_value b (h b (List.mem_cons_self b v)),
      ih fun x hx => h x (List.mem_cons_of_mem b hx), bytesToNat_cons]
    have hpow : (2 : Nat) ^ (8 * v.length) = 256 ^ v.length := by
      rw [Nat.pow_mul]
    rw [hpow]

theorem u8vec_to_boolvec_all_false (v : List Nat) (h : ∀ b ∈ v, b = 0) :
    ∀ x ∈ u8vec_to_boolvec v, x = false := by
  induction v with
  | nil => intro x hx; exact absurd hx (List.not_mem_nil x)
  | cons b v ih =>
    intro x hx
    rw [u8vec_to_boolvec_cons] at hx
    rcases List.mem_append.mp hx with h₁ | h₁
    · rw [h b (List.mem_cons_self b v), byteToBits_zero] at h₁
      exact List.eq_of_mem_replicate h₁
    · exact ih (fun y hy => h y (List.mem_cons_of_mem b hy)) x h₁

theorem chunks8_value :
    ∀ l : List Bool, 8 ∣ l.length →
      bytesToNat ((listChunks 8 l).map bitsToNat) = bitsToNat l
        ∧ (listChunks 8 l).length = l.length / 8
        ∧ ∀ x ∈ (listChunks 8 l).map bitsToNat, x < 256 := by
  suffices H : ∀ (N : Nat) (l : List Bool), l.length ≤ N → 8 ∣ l.length →
      bytesToNat ((listChunks 8 l).map bitsToNat) = bitsToNat l
        ∧ (listChunks 8 l).length = l.length / 8
        ∧ ∀ x ∈ (listChunks 8 l).map bitsToNat, x < 256 by
    intro l hd; exact H l.length l le_rfl hd
  intro N
  induction N with
  | zero =>
    intro l hl hd
    have : l = [] := List.eq_nil_of_length_eq_zero (Nat.le_zero.mp hl)
    subst this
    rw [listChunks_nil]
    refine ⟨rfl, rfl, ?_⟩
    intro x hx
    exact absurd hx (List.not_mem_nil x)
  | succ N ih =>
    intro l hl hd
    by_cases h : l = []
    · subst h
      rw [listChunks_nil]
      refine ⟨rfl, rfl, ?_⟩
      intro x hx
      exact absurd hx (List.not_mem_nil x)
    · have hpos : 0 < l.length := List.length_pos.mpr h
      have h8 : 8 ≤ l.length := Nat.le_of_dvd hpos hd
      have hdlen : (l.drop 8).length = l.length - 8 := by simp [List.length_drop]
      have hddvd : 8 ∣ (l.drop 8).length := by
        rw [hdlen]
        exact Nat.dvd_sub' hd (dvd_refl 8)
      obtain ⟨hv, hc, hb⟩ := ih (l.drop 8) (by omega) hddvd
      have htake : (l.take 8).length = 8 := by simp [List.length_take]; omega
      rw [listChunks_cons (by omega) h, List.map_cons]
      constructor
      · rw [bytesToNat_cons, hv, List.length_map, hc, hdlen]
        have hsplit : bitsToNat l = bitsToNat (l.take 8) * 2 ^ (l.length - 8) + bitsToNat (l.drop 8) := by
          conv_lhs => rw [← List.take_append_drop 8 l]
          rw [bitsToNat_append, hdlen]
        have hp : (256 : Nat) ^ ((l.length - 8) / 8) = 2 ^ (l.length - 8) := by
          rw [show (256 : Nat) = 2 ^ 8 from rfl, ← Nat.pow_mul]
          congr 1
          obtain ⟨m, hm⟩ := hd
          have hm1 : 1 ≤ m := by omega
          have h2 : l.length - 8 = 8 * (m - 1) := by omega
          rw [h2, Nat.mul_div_cancel_left (m - 1) (by omega : 0 < 8)]
        rw [hsplit, hp]
      constructor
      · rw [List.length_cons, hc, hdlen]
        obtain ⟨m, hm⟩ := hd
        have hm1 : 1 ≤ m := by omega
        rw [hm, Nat.mul_div_cancel_left m (by omega : 0 < 8)]
        have : 8 * m - 8 = 8 * (m - 1) := by omega
        rw [this, Nat.mul_div_cancel_left (m - 1) (by omega : 0 < 8)]
        omega
      · intro x hx
        rcases List.mem_cons.mp hx with h₁ | h₁
        · subst h₁
          have := bitsToNat_lt (l.take 8)
          rw [htake] at this
          exact this
        · exact hb x h₁

theorem boolvec_to_u8vec_value (bv : List Bool) (h : bv ≠ []) :
    ∃ bs, boolvec_to_u8vec bv = some bs ∧ bytesToNat bs = bitsToNat bv ∧ ∀ b ∈ bs, b < 256 := by
  have hpos : 0 < bv.length := List.length_pos.mpr h
  by_cases hrem : bv.length % 8 = 0
  · have hdvd : 8 ∣ bv.length := Nat.dvd_of_mod_eq_zero hrem
    have h8 : 8 ≤ bv.length := Nat.le_of_dvd hpos hdvd
    obtain ⟨hv, _, hb⟩ := chunks8_value bv hdvd
    refine ⟨(listChunks 8 bv).map bitsToNat, ?_, hv, hb⟩
    rw [listChunks_cons (by omega : 0 < 8) h, List.map_cons]
    simp only [boolvec_to_u8vec, hrem, if_true, if_pos h8]
  · have hrle : bv.length % 8 ≤ bv.length := Nat.mod_le _ _
    have hdlen : (bv.drop (bv.length % 8)).length = bv.length - bv.length % 8 := by
      simp [List.length_drop]
    have hdd : 8 ∣ (bv.drop (bv.length % 8)).length := by
      rw [hdlen]
      have := Nat.mod_add_div bv.length 8
      exact ⟨bv.length / 8, by omega⟩
    obtain ⟨hv, hc, hb⟩ := chunks8_value (bv.drop (bv.length % 8)) hdd
    refine ⟨bitsToNat (bv.take (bv.length % 8))
      :: (listChunks 8 (bv.drop (bv.length % 8))).map bitsToNat, ?_, ?_, ?_⟩
    · simp only [boolvec_to_u8vec, hrem, if_false, if_pos hrle]
    · rw [bytesToNat_cons, hv, List.length_map, hc, hdlen]
      have hsplit : bitsToNat bv
          = bitsToNat (bv.take (bv.length % 8)) * 2 ^ (bv.length - bv.length % 8)
            + bitsToNat (bv.drop (bv.length % 8)) := by
        conv_rhs => rw [← hdlen]
        conv_lhs => rw [← List.take_append_drop (bv.length % 8) bv]
        rw [bitsToNat_append]
      have hp : (256 : Nat) ^ ((bv.length - bv.length % 8) / 8)
          = 2 ^ (bv.length - bv.length % 8) := by
        rw [show (256 : Nat) = 2 ^ 8 from rfl, ← Nat.pow_mul]
        congr 1
        have := Nat.mod_add_div bv.length 8
        have h2 : bv.length - bv.length % 8 = 8 * (bv.length / 8) := by omega
        rw [h2, Nat.mul_div_cancel_left _ (by omega : 0 < 8)]
      rw [hsplit, hp]
    · intro b hb2
      rcases List.mem_cons.mp hb2 with h₁ | h₁
      · subst h₁
        have hlt := bitsToNat_lt (bv.take (bv.length % 8))
        have htl : (bv.take (bv.length % 8)).length = bv.length % 8 := by
          rw [List.length_take]
          exact Nat.min_eq_left hrle
        rw [htl] at hlt
        have hle8 : (2 : Nat) ^ (bv.length % 8) ≤ 2 ^ 8 := by
          apply Nat.pow_le_pow_right (by omega)
          have := Nat.mod_lt bv.length (by omega : 0 < 8)
          omega
        have h256 : (2 : Nat) ^ 8 = 256 := by norm_num
        rw [← h256]
        exact lt_of_lt_of_le hlt hle8
      · exact hb b h₁

/-! ### Byte expansions of big integers -/

theorem bytesToNat_append (l₁ l₂ : List Nat) :
    bytesToNat (l₁ ++ l₂) = bytesToNat l₁ * 256 ^ l₂.length + bytesToNat l₂ := by
  show (l₁ ++ l₂).foldl _ 0 = _
  rw [List.foldl_append, bytesToNat_foldl l₂]
  rfl

theorem bytesToNat_reverse (l : List Nat) : bytesToNat l.reverse = bytesToNatLE l := by
  induction l with
  | nil => rfl
  | cons x l ih =>
    rw [List.reverse_cons, bytesToNat_append, ih]
    show _ = x + 256 * bytesToNatLE l
    have h1 : bytesToNat [x] = x := by simp [bytesToNat]
    rw [h1]
    simp
    ring

theorem toBytesLEAux_value : ∀ (fuel n : Nat), n ≤ fuel →
    bytesToNatLE (toBytesLEAux fuel n) = n := by
  intro fuel
  induction fuel with
  | zero =>
    intro n h
    have : n = 0 := Nat.le_zero.mp h
    subst this
    rfl
  | succ fuel ih =>
    intro n h
    by_cases h0 : n = 0
    · subst h0; rfl
    · have hdiv : n / 256 ≤ fuel := by
        have := Nat.div_lt_self (by omega : 0 < n) (by omega : 1 < 256)
        omega
      show bytesToNatLE (if n = 0 then [] else n % 256 :: toBytesLEAux fuel (n / 256)) = n
      rw [if_neg h0]
      show n % 256 + 256 * bytesToNatLE (toBytesLEAux fuel (n / 256)) = n
      rw [ih (n / 256) hdiv]
      omega

theorem toBytesLE_value (n : Nat) : bytesToNatLE (toBytesLE n) = n := by
  by_cases h : n = 0
  · subst h; rfl
  · show bytesToNatLE (if n = 0 then [0] else toBytesLEAux n n) = n
    rw [if_neg h]
    exact toBytesLEAux_value n n le_rfl

theorem toBytesLEAux_lt : ∀ (fuel n : Nat), ∀ b ∈ toBytesLEAux fuel n, b < 256 := by
  intro fuel
  induction fuel with
  | zero => intro n b hb; exact absurd hb (List.not_mem_nil b)
  | succ fuel ih =>
    intro n b hb
    by_cases h0 : n = 0
    · subst h0; exact absurd hb (List.not_mem_nil b)
    · show b < 256
      have : toBytesLEAux (fuel + 1) n = n % 256 :: toBytesLEAux fuel (n / 256) := by
        show (if n = 0 then [] else _) = _
        rw [if_neg h0]
      rw [this] at hb
      rcases List.mem_cons.mp hb with h₁ | h₁
      · subst h₁; exact Nat.mod_lt n (by omega)
      · exact ih (n / 256) b h₁

theorem toBytesLE_lt (n : Nat) : ∀ b ∈ toBytesLE n, b < 256 := by
  intro b hb
  by_cases h : n = 0
  · subst h
    simp [toBytesLE] at hb
    omega
  · show b < 256
    have : toBytesLE n = toBytesLEAux n n := by
      show (if n = 0 then [0] else _) = _
      rw [if_neg h]
    rw [this] at hb
    exact toBytesLEAux_lt n n b hb

theorem toBytesLEAux_length : ∀ (fuel n k : Nat), n ≤ fuel → n < 256 ^ k →
    (toBytesLEAux fuel n).length ≤ k := by
  intro fuel
  induction fuel with
  | zero =>
    intro n k h hk
    have : n = 0 := Nat.le_zero.mp h
    subst this
    simp [toBytesLEAux]
  | succ fuel ih =>
    intro n k h hk
    by_cases h0 : n = 0
    · subst h0; simp [toBytesLEAux]
    · have : toBytesLEAux (fuel + 1) n = n % 256 :: toBytesLEAux fuel (n / 256) := by
        show (if n = 0 then [] else _) = _
        rw [if_neg h0]
      rw [this, List.length_cons]
      cases k with
      | zero =>
        exfalso
        simp at hk
        omega
      | succ k =>
        have hdiv : n / 256 ≤ fuel := by
          have := Nat.div_lt_self (by omega : 0 < n) (by omega : 1 < 256)
          omega
        have hdivk : n / 256 < 256 ^ k := by
          rw [Nat.pow_succ] at hk
          exact Nat.div_lt_of_lt_mul (by omega)
        have := ih (n / 256) k hdiv hdivk
        omega

theorem toBytesLE_length (n k : Nat) (hk : 0 < k) (h : n < 256 ^ k) :
    (toBytesLE n).length ≤ k := by
  by_cases h0 : n = 0
  · subst h0
    show (if (0 : Nat) = 0 then [0] else _).length ≤ k
    simp
    omega
  · have : toBytesLE n = toBytesLEAux n n := by
      show (if n = 0 then [0] else _) = _
      rw [if_neg h0]
    rw [this]
    exact toBytesLEAux_length n n k le_rfl h

/-! ### Helpers for the no-pad codec and the byte round trip -/

theorem bitsToNat_dropWhile_not (l : List Bool) :
    bitsToNat (l.dropWhile fun b => !b) = bitsToNat l := by
  induction l with
  | nil => rfl
  | cons b l ih =>
    cases b with
    | false =>
      rw [List.dropWhile_cons_of_pos (by simp), ih, bitsToNat_cons]
      simp
    | true => rw [List.dropWhile_cons_of_neg (by simp)]

theorem dropWhile_head_not {α : Type} (p : α → Bool) :
    ∀ (l : List α) (x : α) (xs : List α), l.dropWhile p = x :: xs → p x = false := by
  intro l
  induction l with
  | nil => intro x xs h; simp at h
  | cons a l ih =>
    intro x xs h
    by_cases hp : p a = true
    · rw [List.dropWhile_cons_of_pos hp] at h
      exact ih x xs h
    · rw [List.dropWhile_cons_of_neg hp] at h
      cases h
      simpa using hp

theorem listChunks_flatten_uniform {α : Type} (n : Nat) (hn : 0 < n) :
    ∀ cs : List (List α), (∀ c ∈ cs, c.length = n) →
      listChunks n cs.flatten = cs := by
  intro cs
  induction cs with
  | nil => intro h; rw [List.flatten_nil, listChunks_nil]
  | cons c cs ih =>
    intro h
    have hc : c.length = n := h c (List.mem_cons_self c cs)
    have hcne : c ++ cs.flatten ≠ [] := by
      intro habs
      have := congrArg List.length habs
      simp [List.length_append, hc] at this
      omega
    rw [List.flatten_cons, listChunks_cons hn hcne]
    have htake : (c ++ cs.flatten).take n = c := by
      rw [← hc]
      exact List.take_left c cs.flatten
    have hdrop : (c ++ cs.flatten).drop n = cs.flatten := by
      rw [← hc]
      exact List.drop_left c cs.flatten
    rw [htake, hdrop, ih fun x hx => h x (List.mem_cons_of_mem c hx)]

theorem u8vec_roundtrip_of_ne_nil (v : List Nat) (hv : v ≠ []) (h : ∀ b ∈ v, b < 256) :
    boolvec_to_u8vec (u8vec_to_boolvec v) = some v := by
  have hlen : (u8vec_to_boolvec v).length = 8 * v.length := u8vec_to_boolvec_length v
  have hpos : 0 < v.length := List.length_pos.mpr hv
  have hrem : (u8vec_to_boolvec v).length % 8 = 0 := by rw [hlen]; omega
  have h8 : 8 ≤ (u8vec_to_boolvec v).length := by rw [hlen]; omega
  have hne : u8vec_to_boolvec v ≠ [] := by
    intro habs
    have h0 : (u8vec_to_boolvec v).length = 0 := by rw [habs]; rfl
    rw [hlen] at h0
    omega
  have hchunks : listChunks 8 (u8vec_to_boolvec v) = v.map byteToBits := by
    show listChunks 8 (v.map byteToBits).flatten = v.map byteToBits
    apply listChunks_flatten_uniform 8 (by omega)
    intro c hc
    obtain ⟨b, _, rfl⟩ := List.mem_map.mp hc
    exact byteToBits_length b
  have hres : boolvec_to_u8vec (u8vec_to_boolvec v)
      = some ((listChunks 8 (u8vec_to_boolvec v)).map bitsToNat) := by
    rw [listChunks_cons (by omega : (0:Nat) < 8) hne, List.map_cons]
    simp only [boolvec_to_u8vec, hrem, if_true, if_pos h8]
  rw [hres, hchunks, List.map_map]
  congr 1
  have hmapid : v.map (bitsToNat ∘ byteToBits) = v.map id := by
    apply List.map_congr_left
    intro b hb
    exact byteToBits_value b (h b hb)
  rw [hmapid, List.map_id]

/-! ### Claim theorems: bit codec and field bridge -/

/-- C5: the claim states that `boolvec_to_u8vec` on an empty bit sequence
does not panic and returns an empty byte buffer.  The code disagrees: for an
empty input the source computes `first_byte_bitsize = 8` and slices
`bv[0..8]` out of an empty slice, which panics.  This theorem evaluates the
embedded code at the failing input and records the panic (`none`). -/
theorem C5_boolvec_to_u8vec_empty_panics : boolvec_to_u8vec ([] : List Bool) = none := by
  decide

/-- C4: the claim states the byte/bit round trip for every byte buffer,
including the empty one.  The round trip does hold for every nonempty buffer
of in-range bytes (`u8vec_roundtrip_of_ne_nil`), but on the empty buffer
`u8vec_to_boolvec` produces the empty bit sequence, on which
`boolvec_to_u8vec` panics (see C5).  This theorem evaluates the embedded
code at the failing input: the claim would require the result `some []`. -/
theorem C4_roundtrip_fails_on_empty_buffer :
    u8vec_to_boolvec ([] : List Nat) = []
      ∧ boolvec_to_u8vec (u8vec_to_boolvec ([] : List Nat)) = none := by
  decide

/-- C6: for every unsigned big integer `V ≤ 2^256 - 1`, `bigint_to_256bits V`
returns a bit array of exactly 256 entries whose MSB-first big-endian value
is `V`. -/
theorem C6_bigint_to_256bits_width_and_value (V : Nat) (h : V < 2 ^ 256) :
    ∃ bs, bigint_to_256bits V = some bs ∧ bs.length = 256 ∧ bitsToNat bs = V := by
  have h256 : (256 : Nat) ^ 32 = 2 ^ 256 := by norm_num
  have hblen : (toBytesLE V).length ≤ 32 :=
    toBytesLE_length V 32 (by omega) (by rw [h256]; exact h)
  have hbytes : ∀ b ∈ toBytesBE V, b < 256 := by
    intro b hb
    exact toBytesLE_lt V b (List.mem_reverse.mp hb)
  have hbitlen : (u8vec_to_boolvec (toBytesBE V)).length ≤ 256 := by
    rw [u8vec_to_boolvec_length, toBytesBE, List.length_reverse]
    omega
  refine ⟨List.replicate (256 - (u8vec_to_boolvec (toBytesBE V)).length) false
    ++ u8vec_to_boolvec (toBytesBE V), ?_, ?_, ?_⟩
  · simp only [bigint_to_256bits, if_pos hbitlen]
  · rw [List.length_append, List.length_replicate]
    omega
  · rw [bitsToNat_append, bitsToNat_replicate_false, u8vec_to_boolvec_value _ hbytes,
      toBytesBE, bytesToNat_reverse, toBytesLE_value]
    ring

/-- C6 witness: the width-and-value theorem instantiated at `V = 3`. -/
theorem C6_witness :
    ∃ bs, bigint_to_256bits 3 = some bs ∧ bs.length = 256 ∧ bitsToNat bs = 3 :=
  C6_bigint_to_256bits_width_and_value 3 (by norm_num)

/-- C7: `biguint_to_f` is additively homomorphic on arguments whose byte
representations fit the conversion's 64-byte wide buffer.  Following the
spec's "for all unsigned integers A, B with A+B representable", the
hypothesis covers the three conversions the equation performs, i.e. the sum
must fit the buffer as well. -/
theorem C7_biguint_to_f_additive (A B : Nat)
    (hA : (toBytesLE A).length ≤ 64) (hB : (toBytesLE B).length ≤ 64)
    (hAB : (toBytesLE (A + B)).length ≤ 64) :
    ∃ a b c, biguint_to_f A = some a ∧ biguint_to_f B = some b ∧
      biguint_to_f (A + B) = some c ∧ Fadd a b = c := by
  refine ⟨A % MODULUS, B % MODULUS, (A + B) % MODULUS, ?_, ?_, ?_, ?_⟩
  · simp only [biguint_to_f, if_pos hA, bytesToNatLE_append_zeros, toBytesLE_value]
  · simp only [biguint_to_f, if_pos hB, bytesToNatLE_append_zeros, toBytesLE_value]
  · simp only [biguint_to_f, if_pos hAB, bytesToNatLE_append_zeros, toBytesLE_value]
  · show (A % MODULUS + B % MODULUS) % MODULUS = (A + B) % MODULUS
    exact (Nat.add_mod A B MODULUS).symm

/-- C7 witness: the homomorphism theorem instantiated at `A = 2`, `B = 3`. -/
theorem C7_witness :
    ∃ a b c, biguint_to_f 2 = some a ∧ biguint_to_f 3 = some b ∧
      biguint_to_f (2 + 3) = some c ∧ Fadd a b = c :=
  C7_biguint_to_f_additive 2 3 (by decide) (by decide) (by decide)

/-- C8: for all unsigned integers whose sum is strictly below the field
modulus, converting both to field elements, adding in the field and
converting back with `f_to_bigint` recovers the exact arithmetic sum. -/
theorem C8_field_roundtrip_of_sum (A B : Nat) (h : A + B < MODULUS) :
    ∃ a b, biguint_to_f A = some a ∧ biguint_to_f B = some b ∧
      f_to_bigint (Fadd a b) = A + B := by
  have hM : MODULUS < 256 ^ 64 := by decide
  have hA64 : (toBytesLE A).length ≤ 64 :=
    toBytesLE_length A 64 (by omega) (by omega)
  have hB64 : (toBytesLE B).length ≤ 64 :=
    toBytesLE_length B 64 (by omega) (by omega)
  have hAmod : A % MODULUS = A := Nat.mod_eq_of_lt (by omega)
  have hBmod : B % MODULUS = B := Nat.mod_eq_of_lt (by omega)
  refine ⟨A % MODULUS, B % MODULUS, ?_, ?_, ?_⟩
  · simp only [biguint_to_f, if_pos hA64, bytesToNatLE_append_zeros, toBytesLE_value]
  · simp only [biguint_to_f, if_pos hB64, bytesToNatLE_append_zeros, toBytesLE_value]
  · show f_to_bigint ((A % MODULUS + B % MODULUS) % MODULUS) = A + B
    rw [hAmod, hBmod, Nat.mod_eq_of_lt h]
    show bytesToNatLE (toBytesLE (A + B) ++ List.replicate _ 0) = A + B
    rw [bytesToNatLE_append_zeros, toBytesLE_value]

/-- C8 witness: the round-trip theorem instantiated at `A = 5`, `B = 7`. -/
theorem C8_witness :
    ∃ a b, biguint_to_f 5 = some a ∧ biguint_to_f 7 = some b ∧
      f_to_bigint (Fadd a b) = 5 + 7 :=
  C8_field_roundtrip_of_sum 5 7 (by decide)

/-- C10: the no-pad conversion yields the shortest MSB-first representation:
it starts with `false` only when it is exactly `[false]`, it denotes the same
unsigned value as the input bytes, and every all-zero input (including the
empty buffer) yields exactly `[false]`. -/
theorem C10_no_pad_normalizes (v : List Nat) (h : ∀ b ∈ v, b < 256) :
    ((u8vec_to_boolvec_no_pad v).head? = some false → u8vec_to_boolvec_no_pad v = [false])
      ∧ bitsToNat (u8vec_to_boolvec_no_pad v) = bytesToNat v
      ∧ ((∀ b ∈ v, b = 0) → u8vec_to_boolvec_no_pad v = [false]) := by
  by_cases hs : (u8vec_to_boolvec v).dropWhile (fun b => !b) = []
  · have hr : u8vec_to_boolvec_no_pad v = [false] := by
      simp [u8vec_to_boolvec_no_pad, hs]
    refine ⟨fun _ => hr, ?_, fun _ => hr⟩
    have hall : ∀ x ∈ u8vec_to_boolvec v, x = false := by
      intro x hx
      have := List.dropWhile_eq_nil_iff.mp hs x hx
      simpa using this
    rw [hr, ← u8vec_to_boolvec_value v h, bitsToNat_all_false _ hall]
    decide
  · have hr : u8vec_to_boolvec_no_pad v = (u8vec_to_boolvec v).dropWhile (fun b => !b) := by
      simp [u8vec_to_boolvec_no_pad, hs, List.isEmpty_eq_false.mpr hs]
    refine ⟨?_, ?_, ?_⟩
    · intro hh
      rw [hr] at hh
      obtain ⟨x, xs, hxs⟩ := List.exists_cons_of_ne_nil hs
      rw [hxs] at hh
      have hx := dropWhile_head_not (fun b => !b) (u8vec_to_boolvec v) x xs hxs
      simp at hh hx
      rw [hx] at hh
      exact absurd hh (by simp)
    · rw [hr, bitsToNat_dropWhile_not, u8vec_to_boolvec_value v h]
    · intro hz
      exfalso
      apply hs
      rw [List.dropWhile_eq_nil_iff]
      intro x hx
      have := u8vec_to_boolvec_all_false v hz x hx
      simp [this]

/-- C10 witness: the normalization theorem instantiated at the buffer
`[1, 0]` (value 256). -/
theorem C10_witness :
    ((u8vec_to_boolvec_no_pad [1, 0]).head? = some false
        → u8vec_to_boolvec_no_pad [1, 0] = [false])
      ∧ bitsToNat (u8vec_to_boolvec_no_pad [1, 0]) = bytesToNat [1, 0]
      ∧ ((∀ b ∈ [1, 0], b = 0) → u8vec_to_boolvec_no_pad [1, 0] = [false]) :=
  C10_no_pad_normalizes [1, 0] (by decide)

/-! ### Claim theorem: limb decomposition -/

/-- C9: for every 256-bit MSB-first array, the sum of the 4 weighted limbs of
`bits_to_limbs` is exactly the unsigned value of the array; and the concrete
array with single `true` bits at positions 63, 127, 191 and 255 decomposes to
the limbs `2^192`, `2^128`, `2^64`, `1` (most-significant-weighted first). -/
theorem C9_bits_to_limbs_reconstruction :
    (∀ X : List Bool, X.length = 256 →
        ∃ ls, bits_to_limbs X = some ls ∧ ls.sum = bitsToNat X)
      ∧ bits_to_limbs
          (List.replicate 63 false ++ true :: (List.replicate 63 false ++ true ::
            (List.replicate 63 false ++ true :: (List.replicate 63 false ++ [true]))))
        = some [6277101735386680763835789423207666416102355444464034512896,
            340282366920938463463374607431768211456, 18446744073709551616, 1] := by
  constructor
  · intro X hX
    have hmap := listChunks_map_length 64 (by omega) X
    rw [hX] at hmap
    have hcl : chunkLengths 64 256 = [64, 64, 64, 64] := by decide
    rw [hcl] at hmap
    rcases hclist : listChunks 64 X with _ | ⟨c0, _ | ⟨c1, _ | ⟨c2, _ | ⟨c3, _ | ⟨c4, cs⟩⟩⟩⟩⟩ <;>
      rw [hclist] at hmap <;> simp at hmap
    obtain ⟨h0, h1, h2, h3⟩ := hmap
    have hne0 : c0 ≠ [] := by intro hh; rw [hh] at h0; simp at h0
    have hne1 : c1 ≠ [] := by intro hh; rw [hh] at h1; simp at h1
    have hne2 : c2 ≠ [] := by intro hh; rw [hh] at h2; simp at h2
    have hne3 : c3 ≠ [] := by intro hh; rw [hh] at h3; simp at h3
    obtain ⟨bs0, hbs0, hv0, _⟩ := boolvec_to_u8vec_value c0 hne0
    obtain ⟨bs1, hbs1, hv1, _⟩ := boolvec_to_u8vec_value c1 hne1
    obtain ⟨bs2, hbs2, hv2, _⟩ := boolvec_to_u8vec_value c2 hne2
    obtain ⟨bs3, hbs3, hv3, _⟩ := boolvec_to_u8vec_value c3 hne3
    have hlv : limbValues [c0, c1, c2, c3]
        = some [bytesToNat bs0, bytesToNat bs1, bytesToNat bs2, bytesToNat bs3] := by
      simp [limbValues, hbs0, hbs1, hbs2, hbs3]
    refine ⟨[bytesToNat bs0 * 2 ^ 192, bytesToNat bs1 * 2 ^ 128,
      bytesToNat bs2 * 2 ^ 64, bytesToNat bs3 * 2 ^ 0], ?_, ?_⟩
    · simp [bits_to_limbs, hclist, hlv]
    · have hXf : c0 ++ (c1 ++ (c2 ++ c3)) = X := by
        have hf := listChunks_flatten 64 (by omega) X
        rw [hclist] at hf
        simpa using hf
      rw [← hXf, bitsToNat_append, bitsToNat_append, bitsToNat_append,
        hv0, hv1, hv2, hv3]
      have hl1 : (c1 ++ (c2 ++ c3)).length = 192 := by
        simp [List.length_append, h1, h2, h3]
      have hl2 : (c2 ++ c3).length = 128 := by simp [List.length_append, h2, h3]
      rw [hl1, hl2, h3]
      simp [List.sum_cons]
  · decide

/-- C9 witness: the reconstruction theorem instantiated at the all-zero
256-bit array. -/
theorem C9_witness :
    ∃ ls, bits_to_limbs (List.replicate 256 false) = some ls
      ∧ ls.sum = bitsToNat (List.replicate 256 false) :=
  C9_bits_to_limbs_reconstruction.1 (List.replicate 256 false) (by simp)

/-! ### Assembly lemmas for the delta matrix builder -/

theorem map_getLastD {α β : Type} (f : α → β) :
    ∀ (l : List α) (d : α), (l.map f).getLastD (f d) = f (l.getLastD d) := by
  intro l
  induction l with
  | nil => intro d; rfl
  | cons a l ih =>
    intro d
    rw [List.map_cons, List.getLastD_cons, List.getLastD_cons]
    exact ih a

theorem convert_eq_spec (ds : List Nat) (U : Nat) (hds : ds.length = 3670)
    (h1 : 245 ≤ U) (h2 : U ≤ 256) :
    convert_and_pad_deltas ds U = some (padSpecAux 0 (listChunks U ds))
      ∧ (listChunks U ds).length = 15 := by
  have hU : 0 < U := by omega
  have hbound : ∀ c ∈ listChunks U ds, c.length ≤ 256 := by
    intro c hc
    have := listChunks_length_le U hU ds c hc
    omega
  constructor
  · show (if U = 0 then none else padChunks 0 (listChunks U ds)) = _
    rw [if_neg (by omega)]
    exact padChunks_eq (listChunks U ds) 0 hbound
  · have hmap := listChunks_map_length U hU ds
    have hcount : (listChunks U ds).length = (chunkLengths U ds.length).length := by
      rw [← hmap, List.length_map]
    rw [hcount, hds]
    interval_cases U <;> decide

theorem padded_length_253 (ds : List Nat) (hds : ds.length = 3670) :
    (padSpecAux 0 (listChunks 253 ds)).length = 3712 := by
  rw [padSpecAux_length, listChunks_map_length 253 (by omega) ds, hds]
  decide

theorem rows_of_3712 (out : List Nat) (hout : out.length = 3712) :
    deltas_to_matrix_of_rows out = some (listChunks 64 out)
      ∧ (listChunks 64 out).length = 58
      ∧ ∀ r ∈ listChunks 64 out, r.length = 64 := by
  have hmap : (listChunks 64 out).map List.length = List.replicate 58 64 := by
    rw [listChunks_map_length 64 (by omega) out, hout]
    decide
  have hcount : (listChunks 64 out).length = 58 := by
    have := congrArg List.length hmap
    rw [List.length_map, List.length_replicate] at this
    exact this
  have hall : ∀ r ∈ listChunks 64 out, r.length = 64 := by
    intro r hr
    have : r.length ∈ (listChunks 64 out).map List.length := List.mem_map_of_mem _ hr
    rw [hmap] at this
    exact List.eq_of_mem_replicate this
  refine ⟨?_, hcount, hall⟩
  show (if (listChunks CELLS_PER_ROW out).length = USEFUL_ROWS
      ∧ ∀ r ∈ listChunks CELLS_PER_ROW out, r.length = CELLS_PER_ROW then _ else _) = _
  rw [if_pos ⟨hcount, hall⟩]
  rfl

theorem deltas_to_matrices_253 (ds : List Nat) (hle : ds.length ≤ CHUNK_SIZE) :
    deltas_to_matrices ds 253
      = some (listChunks 64 (padSpecAux 0 (listChunks 253
            (ds ++ List.replicate (CHUNK_SIZE - ds.length) 0))),
          transpose_rows (listChunks 64 (padSpecAux 0 (listChunks 253
            (ds ++ List.replicate (CHUNK_SIZE - ds.length) 0))))) := by
  have hle3670 : ds.length ≤ 3670 := hle
  have hplen : (ds ++ List.replicate (CHUNK_SIZE - ds.length) 0).length = 3670 := by
    rw [List.length_append, List.length_replicate]
    show ds.length + (3670 - ds.length) = 3670
    omega
  obtain ⟨hconv, _⟩ := convert_eq_spec (ds ++ List.replicate (CHUNK_SIZE - ds.length) 0) 253
    hplen (by omega) (by omega)
  obtain ⟨hrows, _, _⟩ := rows_of_3712 _ (padded_length_253 _ hplen)
  show (if ds.length ≤ CHUNK_SIZE then _ else _) = _
  rw [if_pos hle]
  rw [hconv]
  show (match deltas_to_matrix_of_rows _ with
    | some rows => some (rows, transpose_rows rows)
    | none => none) = _
  rw [hrows]

/-! ### Claim theorems: delta matrix builder -/

/-- C3: with the declared useful-bits constant 253, `deltas_to_matrices`
succeeds on every delta sequence of length at most the chunk capacity
`CHUNK_SIZE` and fails immediately (the capacity `assert!`, embedded as
`none`) on every longer sequence. -/
theorem C3_capacity_boundary :
    (∀ ds : List Nat, ds.length ≤ CHUNK_SIZE → ∃ m, deltas_to_matrices ds 253 = some m)
      ∧ ∀ ds : List Nat, CHUNK_SIZE < ds.length → deltas_to_matrices ds 253 = none := by
  constructor
  · intro ds hle
    exact ⟨_, deltas_to_matrices_253 ds hle⟩
  · intro ds hgt
    show (if ds.length ≤ CHUNK_SIZE then _ else _) = none
    rw [if_neg (by omega)]

/-- C3 witness: the boundary theorem instantiated at the all-zero sequences
of lengths exactly `CHUNK_SIZE` and `CHUNK_SIZE + 1`. -/
theorem C3_witness :
    (∃ m, deltas_to_matrices (List.replicate 3670 0) 253 = some m)
      ∧ deltas_to_matrices (List.replicate 3671 0) 253 = none :=
  ⟨C3_capacity_boundary.1 (List.replicate 3670 0) (by rw [List.length_replicate]; decide),
    C3_capacity_boundary.2 (List.replicate 3671 0) (by rw [List.length_replicate]; decide)⟩

/-- C1 (amended): for every useful-bits constant `U` with `245 ≤ U ≤ 256` —
exactly the widths under which the capacity-wide delta sequence partitions
into 15 groups, matching the code's hard-coded 14 padded groups — and every
input already right-padded to chunk capacity, `convert_and_pad_deltas` pads
every group except the positionally last to width 256, leaves the last group
unpadded, and the count of padded groups is (total groups − 1) = 14. -/
theorem C1_pad_all_but_last_of_15_groups (ds : List Nat) (U : Nat)
    (hds : ds.length = CHUNK_SIZE) (h1 : 245 ≤ U) (h2 : U ≤ 256) :
    convert_and_pad_deltas ds U = some (pad_all_but_last U ds)
      ∧ (listChunks U ds).length = 15
      ∧ (listChunks U ds).length - 1 = 14 := by
  have hds3670 : ds.length = 3670 := hds
  obtain ⟨hconv, hcount⟩ := convert_eq_spec ds U hds3670 h1 h2
  have hspec := padSpecAux_all_but_last (listChunks U ds) 0 (by omega)
  refine ⟨?_, hcount, by omega⟩
  rw [hconv, hspec]
  rfl

/-- C1 witness: the amended padding theorem instantiated at the all-zero
capacity-wide sequence with the declared useful-bits constant 253. -/
theorem C1_witness :
    convert_and_pad_deltas (List.replicate 3670 0) 253
        = some (pad_all_but_last 253 (List.replicate 3670 0))
      ∧ (listChunks 253 (List.replicate 3670 (0 : Nat))).length = 15
      ∧ (listChunks 253 (List.replicate 3670 (0 : Nat))).length - 1 = 14 :=
  C1_pad_all_but_last_of_15_groups (List.replicate 3670 0) 253
    (by rw [List.length_replicate]; decide) (by omega) (by omega)

/-- C1 counterexample: at the useful-bits constant `U = 200` and the all-zero
capacity-wide input, the code pads only the 14 groups with index < 14, not
all (19 − 1) = 18 non-final groups as the claim states for every `U`: the
code's output carries 14·56 = 784 padding elements (total length 4454) while
padding every non-final group would give 18·56 = 1008 (total length 4678),
so the claim's equation fails at this input. -/
theorem C1_counterexample :
    (convert_and_pad_deltas (List.replicate 3670 0) 200).map List.length = some 4454
      ∧ (pad_all_but_last 200 (List.replicate 3670 0)).length = 4678
      ∧ (listChunks 200 (List.replicate 3670 (0 : Nat))).length = 19
      ∧ convert_and_pad_deltas (List.replicate 3670 0) 200
          ≠ some (pad_all_but_last 200 (List.replicate 3670 0)) := by
  have hlen : (List.replicate 3670 (0 : Nat)).length = 3670 := by rw [List.length_replicate]
  have hmap : (listChunks 200 (List.replicate 3670 (0 : Nat))).map List.length
      = chunkLengths 200 3670 := by
    rw [listChunks_map_length 200 (by omega), hlen]
  have hbound : ∀ c ∈ listChunks 200 (List.replicate 3670 (0 : Nat)), c.length ≤ 256 := by
    intro c hc
    have := listChunks_length_le 200 (by omega) _ c hc
    omega
  have hconv : convert_and_pad_deltas (List.replicate 3670 0) 200
      = some (padSpecAux 0 (listChunks 200 (List.replicate 3670 0))) := by
    show (if (200 : Nat) = 0 then none else _) = _
    rw [if_neg (by omega)]
    exact padChunks_eq _ 0 hbound
  have hlenPS : (padSpecAux 0 (listChunks 200 (List.replicate 3670 (0 : Nat)))).length
      = 4454 := by
    rw [padSpecAux_length, hmap]
    decide
  have hlenPA : (pad_all_but_last 200 (List.replicate 3670 0)).length = 4678 := by
    show (((listChunks 200 (List.replicate 3670 (0 : Nat))).dropLast.map
        fun c => List.replicate (256 - c.length) 0 ++ c).flatten
      ++ (listChunks 200 (List.replicate 3670 (0 : Nat))).getLastD []).length = 4678
    rw [List.length_append, List.length_flatten, List.map_map]
    have hcomp : (List.length ∘ fun c : List Nat => List.replicate (256 - c.length) 0 ++ c)
        = (fun x => (256 - x) + x) ∘ List.length := by
      funext c
      simp [List.length_append, List.length_replicate]
    rw [hcomp, ← List.map_map, List.map_dropLast, hmap]
    have hlast : ((listChunks 200 (List.replicate 3670 (0 : Nat))).getLastD []).length
        = (chunkLengths 200 3670).getLastD 0 := by
      rw [← hmap]
      exact (map_getLastD List.length _ ([] : List Nat)).symm
    rw [hlast]
    decide
  have hcount : (listChunks 200 (List.replicate 3670 (0 : Nat))).length = 19 := by
    have := congrArg List.length hmap
    rw [List.length_map] at this
    rw [this]
    decide
  refine ⟨?_, hlenPA, hcount, ?_⟩
  · rw [hconv]
    show some (padSpecAux 0 (listChunks 200 (List.replicate 3670 0))).length = some 4454
    exact congrArg some hlenPS
  · intro habs
    rw [hconv] at habs
    have heq := Option.some.inj habs
    have := congrArg List.length heq
    rw [hlenPS, hlenPA] at this
    omega

theorem out_getElem_3710 (P : List Nat) (hP : P.length = 3670) :
    (padSpecAux 0 (listChunks 253 P))[3710]? = P[3668]? := by
  have hmap : (listChunks 253 P).map List.length = chunkLengths 253 3670 := by
    rw [listChunks_map_length 253 (by omega), hP]
  have hcount : (listChunks 253 P).length = 15 := by
    have h := congrArg List.length hmap
    rw [List.length_map] at h
    rw [h]
    decide
  have hsplit := padSpecAux_all_but_last (listChunks 253 P) 0 (by omega)
  have hget14 : (listChunks 253 P)[14]? = some ((P.drop 3542).take 253) := by
    have h := listChunks_getElem? 253 (by omega) P 14 (by omega)
    norm_num at h
    exact h
  have hlast : (listChunks 253 P).getLastD [] = (P.drop 3542).take 253 := by
    rw [List.getLastD_eq_getLast?, List.getLast?_eq_getElem?, hcount]
    show ((listChunks 253 P)[14]?).getD [] = _
    rw [hget14]
    rfl
  have hlastlen : ((P.drop 3542).take 253).length = 128 := by
    rw [List.length_take, List.length_drop, hP]
    decide
  have houtlen : (padSpecAux 0 (listChunks 253 P)).length = 3712 := padded_length_253 P hP
  have hBlen : (((listChunks 253 P).dropLast.map
      fun c => List.replicate (256 - c.length) 0 ++ c).flatten).length = 3584 := by
    have h1 := houtlen
    rw [hsplit, List.length_append, hlast, hlastlen] at h1
    omega
  rw [hsplit, List.getElem?_append_right (by rw [hBlen]; omega), hBlen, hlast]
  show ((P.drop 3542).take 253)[126]? = P[3668]?
  have htake : ((P.drop 3542).take 253)[126]? = (P.drop 3542)[126]? := by
    simp [List.getElem?_take]
  rw [htake, List.getElem?_drop]

theorem rows_element_3710 (out : List Nat) (hout : out.length = 3712) :
    ((listChunks 64 out).getD (USEFUL_ROWS - 1) []).getD (CELLS_PER_ROW - 2) 0
        = (out[3710]?).getD 0
      ∧ ((transpose_rows (listChunks 64 out)).getD (CELLS_PER_ROW - 2) []).getD
          (USEFUL_ROWS - 1) 0 = (out[3710]?).getD 0 := by
  obtain ⟨_, hcount, _⟩ := rows_of_3712 out hout
  have hrow : (listChunks 64 out)[57]? = some ((out.drop 3648).take 64) := by
    have h := listChunks_getElem? 64 (by omega) out 57 (by omega)
    norm_num at h
    exact h
  have hrowval : ((out.drop 3648).take 64)[62]?.getD 0 = (out[3710]?).getD 0 := by
    have htake : ((out.drop 3648).take 64)[62]? = (out.drop 3648)[62]? := by
      simp [List.getElem?_take]
    rw [htake, List.getElem?_drop]
  have hfirst : ((listChunks 64 out).getD (USEFUL_ROWS - 1) []).getD (CELLS_PER_ROW - 2) 0
      = (out[3710]?).getD 0 := by
    show ((listChunks 64 out).getD 57 []).getD 62 0 = _
    simp only [List.getD_eq_getElem?_getD]
    rw [hrow]
    show ((out.drop 3648).take 64)[62]?.getD 0 = _
    exact hrowval
  refine ⟨hfirst, ?_⟩
  show ((transpose_rows (listChunks 64 out)).getD 62 []).getD 57 0 = _
  have hcol : (transpose_rows (listChunks 64 out))[62]?
      = some ((listChunks 64 out).map fun row => row.getD 62 0) := by
    show ((List.range CELLS_PER_ROW).map
        fun i => (listChunks 64 out).map fun row => row.getD i 0)[62]? = _
    rw [List.getElem?_map]
    show ((List.range 64)[62]?).map _ = _
    rw [List.getElem?_range (by omega : 62 < 64)]
    rfl
  simp only [List.getD_eq_getElem?_getD]
  rw [hcol]
  show ((listChunks 64 out).map fun row => row.getD 62 0)[57]?.getD 0 = _
  rw [List.getElem?_map, hrow]
  show (((out.drop 3648).take 64).getD 62 0 : Nat) = _
  rw [List.getD_eq_getElem?_getD]
  exact hrowval

theorem matrices_flatten_lengths (out : List Nat) (hout : out.length = 3712) :
    (listChunks 64 out).flatten.length = 3712
      ∧ (transpose_rows (listChunks 64 out)).flatten.length = 3712 := by
  obtain ⟨_, hcount, _⟩ := rows_of_3712 out hout
  constructor
  · rw [listChunks_flatten 64 (by omega) out, hout]
  · rw [List.length_flatten]
    have hmap : (transpose_rows (listChunks 64 out)).map List.length
        = List.replicate 64 58 := by
      show ((List.range CELLS_PER_ROW).map
          fun i => (listChunks 64 out).map fun row => row.getD i 0).map List.length = _
      rw [List.map_map]
      have hconst : (List.length ∘ fun i : Nat =>
          (listChunks 64 out).map fun row => row.getD i 0) = fun _ : Nat => (58 : Nat) := by
        funext i
        show ((listChunks 64 out).map fun row => row.getD i 0).length = 58
        rw [List.length_map, hcount]
      rw [hconst, List.map_const', List.length_range]
      rfl
    rw [hmap]
    simp [List.sum_replicate, smul_eq_mul]

theorem getElem?_replicate_append {α : Type} (n : Nat) (x : α) (l : List α) :
    (List.replicate n x ++ l)[n]? = l[0]? := by
  rw [List.getElem?_append_right (le_of_eq (List.length_replicate n x)),
    List.length_replicate, Nat.sub_self]

theorem matrices_assembled (ds : List Nat) (hds : ds.length ≤ 3670) (v : Nat)
    (hv : (ds ++ List.replicate (CHUNK_SIZE - ds.length) 0)[3668]? = some v) :
    ∃ m, deltas_to_matrices ds 253 = some m
      ∧ m.1.flatten.length = m.2.flatten.length
      ∧ m.1.flatten.length = 3712
      ∧ (m.1.getD (USEFUL_ROWS - 1) []).getD (CELLS_PER_ROW - 2) 0 = v
      ∧ (m.2.getD (CELLS_PER_ROW - 2) []).getD (USEFUL_ROWS - 1) 0 = v := by
  have hle : ds.length ≤ CHUNK_SIZE := hds
  have hdtm := deltas_to_matrices_253 ds hle
  have hPlen : (ds ++ List.replicate (CHUNK_SIZE - ds.length) 0).length = 3670 := by
    rw [List.length_append, List.length_replicate]
    show ds.length + (3670 - ds.length) = 3670
    omega
  have hvout := out_getElem_3710 _ hPlen
  rw [hv] at hvout
  have houtlen := padded_length_253 _ hPlen
  obtain ⟨he1, he2⟩ := rows_element_3710 _ houtlen
  obtain ⟨hf1, hf2⟩ := matrices_flatten_lengths _ houtlen
  refine ⟨_, hdtm, hf1.trans hf2.symm, hf1, ?_, ?_⟩
  · rw [he1, hvout]
    rfl
  · rw [he2, hvout]
    rfl

/-- C2 (amended): for the delta sequence of length C (chunk capacity) whose
second-to-last element is the field value 2 and all other elements are 1,
`deltas_to_matrices` with U = 253 yields row-major and column-major matrices
of identical element counts, exceeding the input count by exactly 14·3 zero
padding elements, with the value 2 at the second-to-last position of the
last row and at the last position of the second-to-last column.  (The claim
said length C−2; the in-src test and the code place the 2 at input position
C−2 of a length-C sequence, see the counterexample.) -/
theorem C2_matrix_shape_and_content :
    ∃ m, deltas_to_matrices (List.replicate 3668 1 ++ [2, 1]) 253 = some m
      ∧ m.1.flatten.length = m.2.flatten.length
      ∧ m.1.flatten.length = (List.replicate 3668 (1 : Nat) ++ [2, 1]).length + 14 * 3
      ∧ (m.1.getD (USEFUL_ROWS - 1) []).getD (CELLS_PER_ROW - 2) 0 = 2
      ∧ (m.2.getD (CELLS_PER_ROW - 2) []).getD (USEFUL_ROWS - 1) 0 = 2 := by
  have hdslen : (List.replicate 3668 (1 : Nat) ++ [2, 1]).length = 3670 := by
    rw [List.length_append, List.length_replicate]
    rfl
  have hP3668 : ((List.replicate 3668 (1 : Nat) ++ [2, 1])
      ++ List.replicate (CHUNK_SIZE - (List.replicate 3668 (1 : Nat) ++ [2, 1]).length) 0)[3668]?
        = some 2 := by
    rw [List.getElem?_append_left (by rw [hdslen]; omega), getElem?_replicate_append]
    rfl
  obtain ⟨m, h1, h2, h3, h4, h5⟩ := matrices_assembled _ (by omega) 2 hP3668
  refine ⟨m, h1, h2, ?_, h4, h5⟩
  rw [h3, hdslen]

/-- C2 counterexample: for the delta sequence of length C−2 (as the claim
literally states) with the 2 at its second-to-last position, the build
succeeds but the matrices hold 3712 elements — exceeding the input count
3668 by 44, not by 14·3 = 42 — and the second-to-last position of the last
row holds a right-padding zero, not the value 2; so the claim fails at this
input. -/
theorem C2_counterexample_length_C_minus_2 :
    (∃ m, deltas_to_matrices (List.replicate 3666 1 ++ [2, 1]) 253 = some m
        ∧ m.1.flatten.length = 3712
        ∧ (m.1.getD (USEFUL_ROWS - 1) []).getD (CELLS_PER_ROW - 2) 0 = 0)
      ∧ 3712 ≠ (List.replicate 3666 (1 : Nat) ++ [2, 1]).length + 14 * 3 := by
  have hdslen : (List.replicate 3666 (1 : Nat) ++ [2, 1]).length = 3668 := by
    rw [List.length_append, List.length_replicate]
    rfl
  have hsub : CHUNK_SIZE - (List.replicate 3666 (1 : Nat) ++ [2, 1]).length = 2 := by
    rw [hdslen]
    decide
  have hP3668 : ((List.replicate 3666 (1 : Nat) ++ [2, 1])
      ++ List.replicate (CHUNK_SIZE - (List.replicate 3666 (1 : Nat) ++ [2, 1]).length) 0)[3668]?
        = some 0 := by
    rw [hsub, List.getElem?_append_right (le_of_eq hdslen), hdslen, Nat.sub_self]
    rfl
  obtain ⟨m, h1, _, h3, h4, _⟩ := matrices_assembled _ (by omega) 0 hP3668
  refine ⟨⟨m, h1, h3, h4⟩, ?_⟩
  rw [hdslen]
  decide
